import Mathlib

/-!
# A verification of the 2048 board engine

Shallow embedding of the board engine in `src/lib/2048.ts`: the seeded
random generator, board creation, tile spawning, the slide-and-merge move
in all four directions, and the terminal-state predicates, together with
theorems settling the specification's claims about them.

Machine integers are modelled as `Nat` with explicit reduction mod 2^32
where the JavaScript code works on 32-bit values; the random source is
modelled by the rational values it returns; array accesses that would
throw in JavaScript are modelled with `Option`.
-/

namespace Game2048

/-- A board is a list of rows of natural-number tile values; `0` is empty. -/
abbrev Board := List (List Nat)

/-- The four move directions. -/
inductive Direction
  | left
  | right
  | up
  | down
deriving DecidableEq

/-! ## Seeded random generator (mulberry32), from `createSeededRng` -/

/-- Reduction modulo 2^32, the implicit wraparound of JavaScript 32-bit ops. -/
def mask32 (n : Nat) : Nat := n % 4294967296

/-- Model of `Math.imul`: the low 32 bits of the product, as a bit pattern. -/
def imul32 (a b : Nat) : Nat := mask32 (a * b)

/-- The generator state after `k` state updates: `t = seed >>> 0` initially,
then `t += 0x6d2b79f5` (taken mod 2^32) on each call. -/
def mulberryState (seed : Int) (k : Nat) : Nat :=
  match k with
  | 0 => (seed % (4294967296 : Int)).toNat
  | k + 1 => mask32 (mulberryState seed k + 0x6d2b79f5)

/-- The 32-bit numerator produced by the `k`-th call (0-based) of the
generator returned by `createSeededRng seed`:
`let r = imul(t ^ (t >>> 15), 1 | t); r = (r + imul(r ^ (r >>> 7), 61 | r)) ^ r;
return ((r ^ (r >>> 14)) >>> 0) / 2^32` — this is that return value's numerator. -/
def mulberryNum (seed : Int) (k : Nat) : Nat :=
  let t := mulberryState seed (k + 1)
  let r1 := imul32 (t ^^^ (t >>> 15)) (1 ||| t)
  let r2 := mask32 (r1 + imul32 (r1 ^^^ (r1 >>> 7)) (61 ||| r1)) ^^^ r1
  r2 ^^^ (r2 >>> 14)

/-- The value in `[0,1)` returned by the `k`-th call of the seeded generator. -/
def mulberryOut (seed : Int) (k : Nat) : ℚ := (mulberryNum seed k : ℚ) / 4294967296

/-- The numerator of the spec's four-step formula, following its words:
step 2 `r = (t xor (t >> 15)) * (t | 1) mod 2^32`, step 3
`r = (r xor ((r xor (r>>7)) * (r | 61))) xor r, all mod 2^32`, step 4
output `((r xor (r>>14)) mod 2^32) / 2^32` (state update as in the code). -/
def specMulberryNum (seed : Int) (k : Nat) : Nat :=
  let t := mulberryState seed (k + 1)
  let r1 := mask32 ((t ^^^ (t >>> 15)) * (t ||| 1))
  let r2 := mask32 (r1 ^^^ mask32 ((r1 ^^^ (r1 >>> 7)) * (r1 ||| 61))) ^^^ r1
  mask32 (r2 ^^^ (r2 >>> 14))

/-- The spec's formula with step 3 amended to the code's addition:
`r = ((r + ((r xor (r>>7)) * (r | 61)) mod 2^32) mod 2^32) xor r`. -/
def specMulberryNumAmended (seed : Int) (k : Nat) : Nat :=
  let t := mulberryState seed (k + 1)
  let r1 := mask32 ((t ^^^ (t >>> 15)) * (t ||| 1))
  let r2 := mask32 (r1 + mask32 ((r1 ^^^ (r1 >>> 7)) * (r1 ||| 61))) ^^^ r1
  mask32 (r2 ^^^ (r2 >>> 14))

/-! ## Board creation and cell access -/

/-- Model of `createEmptyBoard`: a `size × size` grid of zeros. -/
def createEmptyBoard (size : Nat) : Board :=
  List.replicate size (List.replicate size 0)

/-- Model of `cloneBoard`: a fresh copy of the board (value-identical). -/
def cloneBoard (board : Board) : Board := board.map (fun row => row)

/-- Row `r` of the board (`[]` out of range, which in-range use never hits). -/
def getRow (board : Board) (r : Nat) : List Nat := board.getD r []

/-- Cell `(r, c)` of the board (`0` out of range, mirroring the zero-filled
target grid of `transpose`; in-range use never hits the default). -/
def getCell (board : Board) (r c : Nat) : Nat := (getRow board r).getD c 0

/-- Model of `getEmptyCells`: coordinates of all zero cells, in row-major order. -/
def getEmptyCells (board : Board) : List (Nat × Nat) :=
  (List.range board.length).flatMap (fun r =>
    (List.range (getRow board r).length).filterMap (fun c =>
      if getCell board r c = 0 then some (r, c) else none))

/-- Model of `rand(n, rng)` = `Math.floor(rng() * n)`, as an integer index. -/
def randIndex (n : Nat) (r : ℚ) : Int := ⌊r * (n : ℚ)⌋

/-- Writing value `v` at cell `(r, c)` (`next[r][c] = value` on a clone). -/
def setCell (board : Board) (r c : Nat) (v : Nat) : Board :=
  board.set r ((getRow board r).set c v)

/-- Model of `spawnRandomTile`: with no empty cell, the board itself; otherwise a 2
(probability 0.9) or 4 at the empty cell indexed by `floor(r1 * count)`.
`r1` and `r2` are the two values the JavaScript code draws from `rng`;
`none` models the exception an out-of-range index would throw. -/
def spawnRandomTile (board : Board) (r1 r2 : ℚ) : Option Board :=
  let empty := getEmptyCells board
  if empty.length = 0 then some board
  else
    let idx := randIndex empty.length r1
    if h : 0 ≤ idx ∧ idx.toNat < empty.length then
      let rc := empty.get ⟨idx.toNat, h.2⟩
      let value : Nat := if r2 < 9 / 10 then 2 else 4
      some (setCell board rc.1 rc.2 value)
    else none

/-- Model of `initializeBoard`: an all-zero `size × size` board with two tiles spawned
sequentially; `r1 r2` feed the first spawn, `r3 r4` the second. -/
def initializeBoard (size : Nat) (r1 r2 r3 r4 : ℚ) : Option Board :=
  (spawnRandomTile (createEmptyBoard size) r1 r2).bind
    (fun b => spawnRandomTile b r3 r4)

/-! ## Slide and merge -/

/-- The merge pass of `slideAndMergeLine`: scan left to right; when an
element equals its immediate successor, emit their sum, add it to the gain
and skip the consumed successor (the `i++` skip-ahead of the loop). -/
def mergeLine : List Nat → List Nat × Nat
  | [] => ([], 0)
  | [a] => ([a], 0)
  | a :: b :: rest =>
    if a = b then
      let p := mergeLine rest
      ((a + b) :: p.1, (a + b) + p.2)
    else
      let p := mergeLine (b :: rest)
      (a :: p.1, p.2)

/-- Result of sliding one line: the new line, the score gained, and whether
the line changed. -/
structure SlideResult where
  result : List Nat
  gain : Nat
  moved : Bool

/-- Model of `slideAndMergeLine`: drop zeros, merge adjacent equal pairs once each,
right-pad with zeros to the original length; `moved` iff the padded result
differs from the input line. -/
def slideAndMergeLine (line : List Nat) : SlideResult :=
  let filtered := line.filter (fun v => decide (v ≠ 0))
  let p := mergeLine filtered
  let result := p.1 ++ List.replicate (line.length - p.1.length) 0
  { result := result, gain := p.2, moved := decide (result ≠ line) }

/-- Model of `transpose`: `t[c][r] = board[r][c]` over a `size × size` zero-filled
target, `size` being the number of rows. -/
def transpose (board : Board) : Board :=
  (List.range board.length).map (fun c =>
    (List.range board.length).map (fun r => getCell board r c))

/-- Model of `reverseRows`: each row reversed. -/
def reverseRows (board : Board) : Board := board.map (fun row => row.reverse)

/-- Result of a move: the new board, total score gained, whether anything moved. -/
structure MoveResult where
  board : Board
  gained : Nat
  moved : Bool

/-- The per-row processing loop shared by the two branches of `move`:
slide every row, sum the gains, or together the per-row moved flags. -/
def processRows (b : Board) : Board × Nat × Bool :=
  (b.map (fun row => (slideAndMergeLine row).result),
   (b.map (fun row => (slideAndMergeLine row).gain)).sum,
   b.any (fun row => (slideAndMergeLine row).moved))

/-- Model of `move`: left processes rows as-is; right reverses rows around the row
pass; up conjugates the row pass by `transpose`; down conjugates the
reversed pass by `transpose`. -/
def move (board : Board) (direction : Direction) : MoveResult :=
  match direction with
  | .left =>
    let p := processRows (cloneBoard board)
    { board := p.1, gained := p.2.1, moved := p.2.2 }
  | .right =>
    let p := processRows (reverseRows (cloneBoard board))
    { board := reverseRows p.1, gained := p.2.1, moved := p.2.2 }
  | .up =>
    let p := processRows (transpose (cloneBoard board))
    { board := transpose p.1, gained := p.2.1, moved := p.2.2 }
  | .down =>
    let p := processRows (reverseRows (transpose (cloneBoard board)))
    { board := transpose (reverseRows p.1), gained := p.2.1, moved := p.2.2 }

/-! ## Terminal-state predicates -/

/-- Model of `has2048`: some cell holds a value of at least 2048. -/
def has2048 (board : Board) : Bool :=
  board.any (fun row => row.any (fun v => 2048 ≤ v))

/-- Model of `hasMoves`: true on any empty cell, else true iff some cell equals its
right or down neighbour. -/
def hasMoves (board : Board) : Bool :=
  if board.any (fun row => row.any (fun v => decide (v = 0))) then true
  else
    let size := board.length
    (List.range size).any (fun r => (List.range size).any (fun c =>
      (decide (c + 1 < size) && decide (getCell board r (c + 1) = getCell board r c)) ||
      (decide (r + 1 < size) && decide (getCell board (r + 1) c = getCell board r c))))

/-! ## Derived notions used by the claims -/

/-- A board is square when every row is as long as the list of rows. -/
def IsSquare (board : Board) : Prop := ∀ row ∈ board, row.length = board.length

/-- A legal tile value: empty, or a power of two of at least 2. -/
def IsTile (x : Nat) : Prop := x = 0 ∨ ∃ k, 1 ≤ k ∧ x = 2 ^ k

/-- A well-formed `n × n` board: square of side `n`, every cell a legal tile. -/
def WellFormed (n : Nat) (board : Board) : Prop :=
  board.length = n ∧ ∀ row ∈ board, row.length = n ∧ ∀ x ∈ row, IsTile x

/-- The total tile mass of a board. -/
def boardSum (board : Board) : Nat := (board.map List.sum).sum

/-! ## Lemmas on the random generator -/

theorem mask32_lt (n : Nat) : mask32 n < 4294967296 :=
  Nat.mod_lt _ (by norm_num)

theorem mask32_eq_of_lt {n : Nat} (h : n < 4294967296) : mask32 n = n :=
  Nat.mod_eq_of_lt h

theorem xor32_lt {a b : Nat} (ha : a < 4294967296) (hb : b < 4294967296) :
    a ^^^ b < 4294967296 := by
  have h32 : (4294967296 : Nat) = 2 ^ 32 := by norm_num
  rw [h32] at ha hb ⊢
  exact Nat.xor_lt_two_pow ha hb

theorem shiftRight_le (m n : Nat) : m >>> n ≤ m := by
  rw [Nat.shiftRight_eq_div_pow]
  exact Nat.div_le_self _ _

theorem mulberryNum_lt (seed : Int) (k : Nat) : mulberryNum seed k < 4294967296 := by
  unfold mulberryNum imul32
  apply xor32_lt
  · exact xor32_lt (mask32_lt _) (mask32_lt _)
  · exact Nat.lt_of_le_of_lt (shiftRight_le _ _) (xor32_lt (mask32_lt _) (mask32_lt _))

/-- C5, counterexample: at seed 0, the very first value produced by the code
(numerator 1144304738) differs from the value of the spec's four-step
formula (numerator 3150886013); the spec's step 3 does not describe the code. -/
theorem rng_matches_spec_counterexample :
    mulberryNum 0 0 = 1144304738 ∧ specMulberryNum 0 0 = 3150886013 ∧
    mulberryOut 0 0 ≠ (specMulberryNum 0 0 : ℚ) / 4294967296 := by
  refine ⟨by decide, by decide, ?_⟩
  have h1 : mulberryNum 0 0 = 1144304738 := by decide
  have h2 : specMulberryNum 0 0 = 3150886013 := by decide
  rw [mulberryOut, h1, h2]
  norm_num

/-- C5 (amended): the generator returned by createSeededRng produces, on its
k-th call for every integer seed, exactly the value of the spec's four-step
formula once step 3 is amended to use addition in place of the first xor,
namely r = ((r + ((r xor (r>>7)) * (r | 61)) mod 2^32) mod 2^32) xor r; the
output is that 32-bit numerator divided by 2^32, a value in [0,1). -/
theorem rng_matches_amended_spec (seed : Int) (k : Nat) :
    mulberryNum seed k = specMulberryNumAmended seed k ∧
    0 ≤ mulberryOut seed k ∧ mulberryOut seed k < 1 := by
  refine ⟨?_, ?_, ?_⟩
  · simp only [mulberryNum, specMulberryNumAmended, imul32]
    rw [Nat.lor_comm 1, Nat.lor_comm 61]
    rw [mask32_eq_of_lt (xor32_lt (xor32_lt (mask32_lt _) (mask32_lt _))
      (Nat.lt_of_le_of_lt (shiftRight_le _ _) (xor32_lt (mask32_lt _) (mask32_lt _))))]
  · unfold mulberryOut
    positivity
  · unfold mulberryOut
    rw [div_lt_one (by norm_num)]
    exact_mod_cast mulberryNum_lt seed k

/-! ## Lemmas on the merge pass -/

theorem mergeLine_sum : ∀ l : List Nat, (mergeLine l).1.sum = l.sum
  | [] => by simp [mergeLine]
  | [a] => by simp [mergeLine]
  | a :: b :: rest => by
    by_cases h : a = b
    · have ih := mergeLine_sum rest
      simp only [mergeLine, if_pos h, List.sum_cons] at ih ⊢
      omega
    · have ih := mergeLine_sum (b :: rest)
      simp only [mergeLine, if_neg h, List.sum_cons] at ih ⊢
      omega

theorem mergeLine_length_le : ∀ l : List Nat, (mergeLine l).1.length ≤ l.length
  | [] => by simp [mergeLine]
  | [a] => by simp [mergeLine]
  | a :: b :: rest => by
    by_cases h : a = b
    · have ih := mergeLine_length_le rest
      simp only [mergeLine, if_pos h, List.length_cons] at ih ⊢
      omega
    · have ih := mergeLine_length_le (b :: rest)
      simp only [mergeLine, if_neg h, List.length_cons] at ih ⊢
      omega

theorem mergeLine_ne_nil : ∀ l : List Nat, l ≠ [] → (mergeLine l).1 ≠ []
  | [], h => absurd rfl h
  | [a], _ => by simp [mergeLine]
  | a :: b :: rest, _ => by
    by_cases h : a = b <;> simp [mergeLine, h]

theorem mergeLine_mem : ∀ l : List Nat, ∀ y ∈ (mergeLine l).1,
    y ∈ l ∨ ∃ x ∈ l, y = x + x
  | [] => by simp [mergeLine]
  | [a] => by simp [mergeLine]
  | a :: b :: rest => by
    by_cases h : a = b
    · intro y hy
      simp only [mergeLine, if_pos h, List.mem_cons] at hy
      rcases hy with rfl | hy
      · exact Or.inr ⟨a, by simp, by omega⟩
      · rcases mergeLine_mem rest y hy with h1 | ⟨x, hx, hxe⟩
        · exact Or.inl (by simp [h1])
        · exact Or.inr ⟨x, by simp [hx], hxe⟩
    · intro y hy
      simp only [mergeLine, if_neg h, List.mem_cons] at hy
      rcases hy with rfl | hy
      · exact Or.inl (by simp)
      · rcases mergeLine_mem (b :: rest) y hy with h1 | ⟨x, hx, hxe⟩
        · exact Or.inl (by simp [List.mem_cons.mp h1])
        · exact Or.inr ⟨x, by simp [List.mem_cons.mp hx], hxe⟩

theorem mergeLine_of_chain : ∀ l : List Nat,
    List.Chain' (fun x y => x ≠ y) l → mergeLine l = (l, 0)
  | [], _ => rfl
  | [a], _ => rfl
  | a :: b :: rest, hc => by
    have hab : a ≠ b := (List.chain'_cons.mp hc).1
    have ih := mergeLine_of_chain (b :: rest) (List.chain'_cons.mp hc).2
    simp only [mergeLine, if_neg hab, ih]

theorem mergeLine_length_lt : ∀ l : List Nat,
    ¬ List.Chain' (fun x y => x ≠ y) l → (mergeLine l).1.length < l.length
  | [], h => absurd List.chain'_nil h
  | [a], h => absurd (List.chain'_singleton a) h
  | a :: b :: rest, h => by
    by_cases hab : a = b
    · have := mergeLine_length_le rest
      simp only [mergeLine, if_pos hab, List.length_cons]
      omega
    · have hrest : ¬ List.Chain' (fun x y => x ≠ y) (b :: rest) := by
        intro hc
        exact h (List.chain'_cons.mpr ⟨hab, hc⟩)
      have ih := mergeLine_length_lt (b :: rest) hrest
      simp only [mergeLine, if_neg hab, List.length_cons] at ih ⊢
      omega

theorem mergeLine_gain_zero : ∀ l : List Nat, (∀ x ∈ l, x ≠ 0) →
    (mergeLine l).1 = l → (mergeLine l).2 = 0
  | [], _, _ => rfl
  | [a], _, _ => rfl
  | a :: b :: rest, hnz, heq => by
    by_cases hab : a = b
    · exfalso
      simp only [mergeLine, if_pos hab, List.cons.injEq] at heq
      have hb : b ≠ 0 := hnz b (by simp)
      omega
    · simp only [mergeLine, if_neg hab, List.cons.injEq] at heq ⊢
      exact mergeLine_gain_zero (b :: rest) (fun x hx => hnz x (by simp [List.mem_cons.mp hx])) heq.2

theorem mergeLine_ne_zero (l : List Nat) (hnz : ∀ x ∈ l, x ≠ 0) :
    ∀ y ∈ (mergeLine l).1, y ≠ 0 := by
  intro y hy
  rcases mergeLine_mem l y hy with h1 | ⟨x, hx, hxe⟩
  · exact hnz y h1
  · have := hnz x hx
    omega

/-! ## Lemmas on sliding a single line -/

theorem filter_ne_zero_sum (l : List Nat) :
    (l.filter (fun v => !decide (v = 0))).sum = l.sum := by
  induction l with
  | nil => simp
  | cons x xs ih => by_cases hx : x = 0 <;> simp [hx, ih]

theorem slide_result_length (line : List Nat) :
    (slideAndMergeLine line).result.length = line.length := by
  have h1 : (mergeLine (line.filter (fun v => decide (v ≠ 0)))).1.length ≤ line.length :=
    le_trans (mergeLine_length_le _) (List.length_filter_le _ _)
  simp only [slideAndMergeLine, List.length_append, List.length_replicate]
  omega

theorem slide_result_sum (line : List Nat) :
    (slideAndMergeLine line).result.sum = line.sum := by
  simp [slideAndMergeLine, mergeLine_sum, filter_ne_zero_sum]

theorem slide_moved_false_iff (line : List Nat) :
    (slideAndMergeLine line).moved = false ↔ (slideAndMergeLine line).result = line := by
  simp [slideAndMergeLine]

theorem slide_moved_true_iff (line : List Nat) :
    (slideAndMergeLine line).moved = true ↔ (slideAndMergeLine line).result ≠ line := by
  simp [slideAndMergeLine]

theorem slide_unmoved_gain_zero (line : List Nat)
    (h : (slideAndMergeLine line).result = line) :
    (slideAndMergeLine line).gain = 0 := by
  have hnz : ∀ x ∈ line.filter (fun v => decide (v ≠ 0)), x ≠ 0 := by
    intro x hx
    simpa using (List.mem_filter.mp hx).2
  have hmnz : ∀ y ∈ (mergeLine (line.filter (fun v => decide (v ≠ 0)))).1, y ≠ 0 :=
    mergeLine_ne_zero _ hnz
  have hres : (slideAndMergeLine line).result =
      (mergeLine (line.filter (fun v => decide (v ≠ 0)))).1 ++
        List.replicate (line.length -
          (mergeLine (line.filter (fun v => decide (v ≠ 0)))).1.length) 0 := rfl
  have hfeq : line.filter (fun v => decide (v ≠ 0)) =
      (mergeLine (line.filter (fun v => decide (v ≠ 0)))).1 := by
    conv_lhs => rw [← h, hres]
    rw [List.filter_append]
    have hrep : (List.replicate (line.length -
        (mergeLine (line.filter (fun v => decide (v ≠ 0)))).1.length) 0).filter
          (fun v => decide (v ≠ 0)) = [] := by
      simp
    rw [hrep, List.append_nil]
    refine List.filter_eq_self.mpr ?_
    intro a ha
    simpa using hmnz a ha
  exact mergeLine_gain_zero _ hnz hfeq.symm

theorem filter_eq_self_of_nonzero (line : List Nat) (hnz : ∀ x ∈ line, x ≠ 0) :
    line.filter (fun v => decide (v ≠ 0)) = line :=
  List.filter_eq_self.mpr (fun a ha => by simpa using hnz a ha)

theorem slide_of_nonzero_chain (line : List Nat) (hnz : ∀ x ∈ line, x ≠ 0)
    (hc : List.Chain' (fun x y => x ≠ y) line) :
    (slideAndMergeLine line).moved = false := by
  rw [slide_moved_false_iff]
  show (mergeLine (line.filter (fun v => decide (v ≠ 0)))).1 ++
    List.replicate (line.length -
      (mergeLine (line.filter (fun v => decide (v ≠ 0)))).1.length) 0 = line
  rw [filter_eq_self_of_nonzero line hnz, mergeLine_of_chain line hc]
  simp

theorem slide_of_nonzero_not_chain (line : List Nat) (hnz : ∀ x ∈ line, x ≠ 0)
    (hc : ¬ List.Chain' (fun x y => x ≠ y) line) :
    (slideAndMergeLine line).moved = true := by
  rw [slide_moved_true_iff]
  intro heq
  have hres : (slideAndMergeLine line).result =
      (mergeLine line).1 ++ List.replicate (line.length - (mergeLine line).1.length) 0 := by
    show (mergeLine (line.filter (fun v => decide (v ≠ 0)))).1 ++
      List.replicate (line.length -
        (mergeLine (line.filter (fun v => decide (v ≠ 0)))).1.length) 0 = _
    rw [filter_eq_self_of_nonzero line hnz]
  have hlt : (mergeLine line).1.length < line.length := mergeLine_length_lt line hc
  have h0 : (0 : Nat) ∈ (slideAndMergeLine line).result := by
    rw [hres]
    refine List.mem_append.mpr (Or.inr ?_)
    exact List.mem_replicate.mpr ⟨by omega, rfl⟩
  rw [heq] at h0
  exact hnz 0 h0 rfl

theorem slide_unmoved_decomp (l : List Nat) (h : (slideAndMergeLine l).result = l) :
    l = (mergeLine (l.filter (fun v => decide (v ≠ 0)))).1 ++
      List.replicate (l.length -
        (mergeLine (l.filter (fun v => decide (v ≠ 0)))).1.length) 0 :=
  h.symm

theorem slide_unmoved_head (l : List Nat) (h : (slideAndMergeLine l).result = l)
    (hx : ∃ x ∈ l, x ≠ 0) : ∃ y, l.head? = some y ∧ y ≠ 0 := by
  obtain ⟨x, hxl, hxnz⟩ := hx
  have hF : x ∈ l.filter (fun v => decide (v ≠ 0)) :=
    List.mem_filter.mpr ⟨hxl, by simpa using hxnz⟩
  have hM : (mergeLine (l.filter (fun v => decide (v ≠ 0)))).1 ≠ [] :=
    mergeLine_ne_nil _ (by intro hnil; rw [hnil] at hF; exact absurd hF (List.not_mem_nil x))
  have hMnz : ∀ y ∈ (mergeLine (l.filter (fun v => decide (v ≠ 0)))).1, y ≠ 0 :=
    mergeLine_ne_zero _ (fun a ha => by simpa using (List.mem_filter.mp ha).2)
  obtain ⟨m, ms, hcons⟩ := List.exists_cons_of_ne_nil hM
  refine ⟨m, ?_, hMnz m (by rw [hcons]; simp)⟩
  conv_lhs => rw [slide_unmoved_decomp l h]
  rw [hcons]
  simp

theorem slide_unmoved_getLast (l : List Nat) (h : (slideAndMergeLine l).result = l)
    (h0 : 0 ∈ l) : l.getLast? = some 0 := by
  have hMnz : ∀ y ∈ (mergeLine (l.filter (fun v => decide (v ≠ 0)))).1, y ≠ 0 :=
    mergeLine_ne_zero _ (fun a ha => by simpa using (List.mem_filter.mp ha).2)
  have hdec := slide_unmoved_decomp l h
  have hk : l.length - (mergeLine (l.filter (fun v => decide (v ≠ 0)))).1.length ≠ 0 := by
    intro hk0
    rw [hk0] at hdec
    simp only [List.replicate_zero, List.append_nil] at hdec
    rw [hdec] at h0
    exact hMnz 0 h0 rfl
  conv_lhs => rw [hdec]
  rw [List.getLast?_append, List.getLast?_replicate, if_neg hk]
  rfl

theorem slide_mixed_moved (line : List Nat) (h0 : 0 ∈ line)
    (hx : ∃ x ∈ line, x ≠ 0) :
    (slideAndMergeLine line).moved = true ∨
      (slideAndMergeLine line.reverse).moved = true := by
  rcases Bool.eq_false_or_eq_true (slideAndMergeLine line).moved with hL | hL
  case inl => exact Or.inl hL
  rcases Bool.eq_false_or_eq_true (slideAndMergeLine line.reverse).moved with hR | hR
  case inl => exact Or.inr hR
  exfalso
  have eL := (slide_moved_false_iff line).mp hL
  have eR := (slide_moved_false_iff line.reverse).mp hR
  have hlast : line.getLast? = some 0 := slide_unmoved_getLast line eL h0
  obtain ⟨y, hy, hynz⟩ := slide_unmoved_head line.reverse eR
    (by obtain ⟨x, hxl, hxnz⟩ := hx; exact ⟨x, List.mem_reverse.mpr hxl, hxnz⟩)
  rw [List.head?_reverse, hlast] at hy
  exact hynz (Option.some.inj hy).symm

theorem cloneBoard_eq (board : Board) : cloneBoard board = board :=
  List.map_id' board

/-! ## Lemmas on transpose and row reversal -/

theorem transpose_length (b : Board) : (transpose b).length = b.length := by
  simp [transpose]

theorem transpose_getElem (b : Board) {c : Nat} (hc : c < (transpose b).length) :
    (transpose b)[c] = (List.range b.length).map (fun r => getCell b r c) := by
  unfold transpose at hc ⊢
  rw [List.getElem_map, List.getElem_range]

theorem getRow_eq_getElem (b : Board) {r : Nat} (hr : r < b.length) :
    getRow b r = b[r] := by
  unfold getRow
  exact List.getD_eq_getElem b [] hr

theorem getRow_mem (b : Board) {r : Nat} (hr : r < b.length) : getRow b r ∈ b := by
  rw [getRow_eq_getElem b hr]
  exact List.getElem_mem hr

theorem getCell_mem_row (b : Board) {r c : Nat} (hc : c < (getRow b r).length) :
    getCell b r c ∈ getRow b r := by
  unfold getCell
  rw [List.getD_eq_getElem _ _ hc]
  exact List.getElem_mem hc

theorem getRow_transpose (b : Board) {c : Nat} (hc : c < b.length) :
    getRow (transpose b) c = (List.range b.length).map (fun r => getCell b r c) := by
  have hc2 : c < (transpose b).length := by rw [transpose_length]; exact hc
  rw [getRow_eq_getElem (transpose b) hc2]
  exact transpose_getElem b hc2

theorem getCell_transpose (b : Board) {r c : Nat} (hr : r < b.length)
    (hc : c < b.length) : getCell (transpose b) c r = getCell b r c := by
  unfold getCell
  rw [getRow_transpose b hc]
  rw [List.getD_eq_getElem _ _ (by simpa using hr), List.getElem_map, List.getElem_range]
  rfl

theorem transpose_row_length (b : Board) : ∀ row ∈ transpose b, row.length = b.length := by
  intro row hrow
  simp only [transpose, List.mem_map] at hrow
  obtain ⟨c, _, rfl⟩ := hrow
  simp

theorem transpose_isSquare (b : Board) : IsSquare (transpose b) := by
  intro row hrow
  rw [transpose_length]
  exact transpose_row_length b row hrow

theorem transpose_transpose (b : Board) (hsq : IsSquare b) :
    transpose (transpose b) = b := by
  refine List.ext_getElem (by simp [transpose]) ?_
  intro r h1 h2
  rw [transpose_getElem (transpose b) h1, transpose_length]
  have hrowlen : b[r].length = b.length := hsq b[r] (List.getElem_mem h2)
  refine List.ext_getElem (by simpa using hrowlen.symm) ?_
  intro j hj1 hj2
  rw [List.getElem_map, List.getElem_range]
  have hj : j < b.length := by simpa using hj1
  rw [getCell_transpose b h2 hj]
  unfold getCell
  rw [getRow_eq_getElem b h2, List.getD_eq_getElem _ _ hj2]

theorem reverseRows_reverseRows (b : Board) : reverseRows (reverseRows b) = b := by
  unfold reverseRows
  rw [List.map_map]
  simp

theorem reverseRows_length (b : Board) : (reverseRows b).length = b.length := by
  simp [reverseRows]

theorem reverseRows_isSquare (b : Board) (hsq : IsSquare b) : IsSquare (reverseRows b) := by
  intro row hrow
  simp only [reverseRows, List.mem_map] at hrow
  obtain ⟨row0, hrow0, rfl⟩ := hrow
  rw [List.length_reverse, reverseRows_length]
  exact hsq row0 hrow0

/-! ## Sum lemmas -/

theorem sum_map_range (f : Nat → Nat) (n : Nat) :
    ((List.range n).map f).sum = ∑ i ∈ Finset.range n, f i := by
  induction n with
  | zero => simp
  | succ m ih =>
    rw [List.range_succ, Finset.sum_range_succ, List.map_append, List.sum_append]
    simp [ih]

theorem list_sum_eq_sum_getD (l : List Nat) :
    l.sum = ∑ i ∈ Finset.range l.length, l.getD i 0 := by
  induction l with
  | nil => simp
  | cons x xs ih =>
    rw [List.sum_cons, List.length_cons, Finset.sum_range_succ']
    simp only [List.getD_cons_succ, List.getD_cons_zero, ← ih]
    omega

theorem boardSum_eq_sum_getCell (b : Board) (hsq : IsSquare b) :
    boardSum b = ∑ r ∈ Finset.range b.length, ∑ c ∈ Finset.range b.length, getCell b r c := by
  unfold boardSum
  rw [list_sum_eq_sum_getD, List.length_map]
  refine Finset.sum_congr rfl ?_
  intro r hr
  have hrb : r < b.length := Finset.mem_range.mp hr
  rw [List.getD_eq_getElem _ _ (by simpa using hrb), List.getElem_map]
  rw [list_sum_eq_sum_getD]
  have hlen : b[r].length = b.length := hsq _ (List.getElem_mem hrb)
  rw [hlen]
  refine Finset.sum_congr rfl ?_
  intro c _
  unfold getCell
  rw [getRow_eq_getElem b hrb]

theorem boardSum_transpose (b : Board) (hsq : IsSquare b) :
    boardSum (transpose b) = boardSum b := by
  rw [boardSum_eq_sum_getCell (transpose b) (transpose_isSquare b),
      boardSum_eq_sum_getCell b hsq, transpose_length]
  have h1 : ∀ r ∈ Finset.range b.length, ∀ c ∈ Finset.range b.length,
      getCell (transpose b) r c = getCell b c r := by
    intro r hr c hc
    exact getCell_transpose b (Finset.mem_range.mp hc) (Finset.mem_range.mp hr)
  rw [Finset.sum_congr rfl (fun r hr => Finset.sum_congr rfl (fun c hc => h1 r hr c hc))]
  exact Finset.sum_comm

theorem boardSum_reverseRows (b : Board) : boardSum (reverseRows b) = boardSum b := by
  unfold boardSum reverseRows
  rw [List.map_map]
  refine congrArg List.sum ?_
  refine List.map_congr_left ?_
  intro row _
  exact List.sum_reverse row

/-! ## Lemmas on move -/

theorem processRows_unmoved (b : Board) (h : (processRows b).2.2 = false) :
    (processRows b).1 = b ∧ (processRows b).2.1 = 0 := by
  have hall : ∀ row ∈ b, (slideAndMergeLine row).moved = false := by
    simpa [processRows, List.any_eq_false] using h
  constructor
  · show b.map _ = b
    calc b.map (fun row => (slideAndMergeLine row).result)
        = b.map (fun row => row) :=
          List.map_congr_left (fun a ha => (slide_moved_false_iff a).mp (hall a ha))
      _ = b := List.map_id' b
  · show (b.map _).sum = 0
    refine List.sum_eq_zero ?_
    intro x hx
    obtain ⟨row, hrow, rfl⟩ := List.mem_map.mp hx
    exact slide_unmoved_gain_zero row ((slide_moved_false_iff row).mp (hall row hrow))

theorem processRows_boardSum (b : Board) : boardSum (processRows b).1 = boardSum b := by
  unfold boardSum processRows
  rw [List.map_map]
  refine congrArg List.sum (List.map_congr_left ?_)
  intro row _
  exact slide_result_sum row

theorem processRows_length (b : Board) : (processRows b).1.length = b.length := by
  simp [processRows]

theorem processRows_isSquare (b : Board) (hsq : IsSquare b) :
    IsSquare (processRows b).1 := by
  intro row hrow
  simp only [processRows, List.mem_map] at hrow
  obtain ⟨row0, hrow0, rfl⟩ := hrow
  rw [slide_result_length, processRows_length]
  exact hsq row0 hrow0

/-- C2: a blocked move (moved = false) leaves the board cell-for-cell
unchanged and gains no score, for every square board and direction. -/
theorem blocked_move_is_noop (b : Board) (d : Direction) (hsq : IsSquare b)
    (h : (move b d).moved = false) : (move b d).board = b ∧ (move b d).gained = 0 := by
  cases d with
  | left =>
    have h' : (processRows b).2.2 = false := by
      simpa [move, cloneBoard_eq] using h
    obtain ⟨h1, h2⟩ := processRows_unmoved b h'
    exact ⟨by simpa [move, cloneBoard_eq] using h1, by simpa [move, cloneBoard_eq] using h2⟩
  | right =>
    have h' : (processRows (reverseRows b)).2.2 = false := by
      simpa [move, cloneBoard_eq] using h
    obtain ⟨h1, h2⟩ := processRows_unmoved _ h'
    refine ⟨?_, by simpa [move, cloneBoard_eq] using h2⟩
    have hb : (move b .right).board = reverseRows ((processRows (reverseRows b)).1) := by
      simp [move, cloneBoard_eq]
    rw [hb, h1, reverseRows_reverseRows]
  | up =>
    have h' : (processRows (transpose b)).2.2 = false := by
      simpa [move, cloneBoard_eq] using h
    obtain ⟨h1, h2⟩ := processRows_unmoved _ h'
    refine ⟨?_, by simpa [move, cloneBoard_eq] using h2⟩
    have hb : (move b .up).board = transpose ((processRows (transpose b)).1) := by
      simp [move, cloneBoard_eq]
    rw [hb, h1, transpose_transpose b hsq]
  | down =>
    have h' : (processRows (reverseRows (transpose b))).2.2 = false := by
      simpa [move, cloneBoard_eq] using h
    obtain ⟨h1, h2⟩ := processRows_unmoved _ h'
    refine ⟨?_, by simpa [move, cloneBoard_eq] using h2⟩
    have hb : (move b .down).board =
        transpose (reverseRows ((processRows (reverseRows (transpose b))).1)) := by
      simp [move, cloneBoard_eq]
    rw [hb, h1, reverseRows_reverseRows, transpose_transpose b hsq]

/-- C2 witness: on the square board [[2]] a left move is blocked, and it
indeed returns the board unchanged with zero gain. -/
theorem blocked_move_is_noop_witness :
    IsSquare [[2]] ∧ (move [[2]] .left).moved = false ∧
      (move [[2]] .left).board = [[2]] ∧ (move [[2]] .left).gained = 0 := by
  refine ⟨by unfold IsSquare; decide, by decide, ?_⟩
  exact blocked_move_is_noop [[2]] .left (by unfold IsSquare; decide) (by decide)

theorem move_boardSum_eq (b : Board) (d : Direction) (hsq : IsSquare b) :
    boardSum (move b d).board = boardSum b := by
  cases d with
  | left =>
    have hb : (move b .left).board = (processRows b).1 := by
      simp [move, cloneBoard_eq]
    rw [hb, processRows_boardSum]
  | right =>
    have hb : (move b .right).board = reverseRows (processRows (reverseRows b)).1 := by
      simp [move, cloneBoard_eq]
    rw [hb, boardSum_reverseRows, processRows_boardSum, boardSum_reverseRows]
  | up =>
    have hb : (move b .up).board = transpose (processRows (transpose b)).1 := by
      simp [move, cloneBoard_eq]
    rw [hb, boardSum_transpose _ (processRows_isSquare _ (transpose_isSquare b)),
        processRows_boardSum, boardSum_transpose b hsq]
  | down =>
    have hb : (move b .down).board =
        transpose (reverseRows (processRows (reverseRows (transpose b))).1) := by
      simp [move, cloneBoard_eq]
    rw [hb,
        boardSum_transpose _ (reverseRows_isSquare _
          (processRows_isSquare _ (reverseRows_isSquare _ (transpose_isSquare b)))),
        boardSum_reverseRows, processRows_boardSum, boardSum_reverseRows,
        boardSum_transpose b hsq]

/-- C10: a move conserves the total tile mass exactly: merging two equal
tiles into their double neither creates nor destroys mass. -/
theorem move_preserves_boardSum (b : Board) (d : Direction) (hsq : IsSquare b) :
    boardSum (move b d).board = boardSum b :=
  move_boardSum_eq b d hsq

/-- C10 witness: a concrete right move on a square board conserves mass. -/
theorem move_preserves_boardSum_witness :
    IsSquare [[2,2],[4,0]] ∧
      boardSum (move [[2,2],[4,0]] .right).board = boardSum [[2,2],[4,0]] := by
  refine ⟨by unfold IsSquare; decide, ?_⟩
  exact move_preserves_boardSum [[2,2],[4,0]] .right (by unfold IsSquare; decide)

/-- C3, counterexample: on [[2,2],[0,0]] moved left, the sum after the move
is 4 while the sum before plus the gained score is 8; the spec's "sum after
equals sum before plus gained" is wrong. -/
theorem move_sum_plus_gained_counterexample :
    boardSum (move [[2,2],[0,0]] .left).board = 4 ∧
      boardSum [[2,2],[0,0]] + (move [[2,2],[0,0]] .left).gained = 8 ∧
      boardSum (move [[2,2],[0,0]] .left).board ≠
        boardSum [[2,2],[0,0]] + (move [[2,2],[0,0]] .left).gained := by
  refine ⟨by decide, by decide, by decide⟩

/-- C3 (amended): for every square board and direction, the sum of all tile
values after a move equals the sum before the move; the gained score is the
sum of the merged tile values and is not added to the board's mass. -/
theorem move_sum_amended (b : Board) (d : Direction) (hsq : IsSquare b) :
    boardSum (move b d).board = boardSum b :=
  move_boardSum_eq b d hsq

/-- C3 witness: the amended conservation law at a concrete square board. -/
theorem move_sum_amended_witness :
    IsSquare [[2,2],[0,0]] ∧
      boardSum (move [[2,2],[0,0]] .left).board = boardSum [[2,2],[0,0]] := by
  refine ⟨by unfold IsSquare; decide, ?_⟩
  exact move_sum_amended [[2,2],[0,0]] .left (by unfold IsSquare; decide)

/-! ## Lemmas on the loss-condition check -/

theorem move_left_moved (b : Board) :
    (move b .left).moved = b.any (fun row => (slideAndMergeLine row).moved) := by
  simp [move, cloneBoard_eq, processRows]

theorem move_right_moved (b : Board) :
    (move b .right).moved =
      (reverseRows b).any (fun row => (slideAndMergeLine row).moved) := by
  simp [move, cloneBoard_eq, processRows]

theorem move_up_moved (b : Board) :
    (move b .up).moved =
      (transpose b).any (fun row => (slideAndMergeLine row).moved) := by
  simp [move, cloneBoard_eq, processRows]

theorem move_down_moved (b : Board) :
    (move b .down).moved =
      (reverseRows (transpose b)).any (fun row => (slideAndMergeLine row).moved) := by
  simp [move, cloneBoard_eq, processRows]

theorem hasMoves_eq_false_iff (b : Board) :
    hasMoves b = false ↔
      (∀ row ∈ b, ∀ v ∈ row, v ≠ 0) ∧
      (∀ r, r < b.length → ∀ c, c < b.length →
        (c + 1 < b.length → getCell b r (c + 1) ≠ getCell b r c) ∧
        (r + 1 < b.length → getCell b (r + 1) c ≠ getCell b r c)) := by
  unfold hasMoves
  by_cases hz : b.any (fun row => row.any (fun v => decide (v = 0))) = true
  · rw [if_pos hz]
    obtain ⟨row, hrow, h0⟩ : ∃ row ∈ b, (0 : Nat) ∈ row := by
      simpa [List.any_eq_true] using hz
    constructor
    · intro h
      exact absurd h (by simp)
    · rintro ⟨h1, -⟩
      exact absurd rfl (h1 row hrow 0 h0)
  · rw [if_neg hz]
    have h1 : ∀ row ∈ b, ∀ v ∈ row, v ≠ 0 := by
      intro row hrow v hv hv0
      exact hz (List.any_eq_true.mpr ⟨row, hrow,
        List.any_eq_true.mpr ⟨v, hv, by simpa using hv0⟩⟩)
    rw [and_iff_right h1]
    simp only [List.any_eq_false, Bool.not_eq_true, List.any_eq_false, List.mem_range,
      Bool.or_eq_true, Bool.and_eq_true, decide_eq_true_eq, not_or, not_and]

theorem hasMoves_true_cases (b : Board) (h : hasMoves b = true) :
    (∃ row ∈ b, (0 : Nat) ∈ row) ∨
      ((∀ row ∈ b, ∀ v ∈ row, v ≠ 0) ∧ ∃ r c, r < b.length ∧ c < b.length ∧
        ((c + 1 < b.length ∧ getCell b r (c + 1) = getCell b r c) ∨
         (r + 1 < b.length ∧ getCell b (r + 1) c = getCell b r c))) := by
  unfold hasMoves at h
  by_cases hz : b.any (fun row => row.any (fun v => decide (v = 0))) = true
  · left
    simpa [List.any_eq_true] using hz
  · right
    rw [if_neg hz] at h
    refine ⟨?_, ?_⟩
    · intro row hrow v hv hv0
      exact hz (List.any_eq_true.mpr ⟨row, hrow,
        List.any_eq_true.mpr ⟨v, hv, by simpa using hv0⟩⟩)
    · obtain ⟨r, hr, c, hc, hadj⟩ := by
        simpa only [List.any_eq_true, List.mem_range, Bool.or_eq_true, Bool.and_eq_true,
          decide_eq_true_eq] using h
      exact ⟨r, c, hr, hc, hadj⟩

theorem getCell_eq_get (b : Board) {r i : Nat} (hi : i < (getRow b r).length) :
    getCell b r i = (getRow b r).get ⟨i, hi⟩ := by
  unfold getCell
  rw [List.getD_eq_getElem _ _ hi]
  simp

theorem chain_of_no_adjacent_row (b : Board) (hsq : IsSquare b) {r : Nat}
    (hr : r < b.length)
    (hadj : ∀ c, c + 1 < b.length → getCell b r (c + 1) ≠ getCell b r c) :
    List.Chain' (fun x y => x ≠ y) (getRow b r) := by
  rw [List.chain'_iff_get]
  intro i hi
  have hlen : (getRow b r).length = b.length := hsq _ (getRow_mem b hr)
  have hi1 : i + 1 < b.length := by omega
  rw [← getCell_eq_get b (by omega), ← getCell_eq_get b (by omega)]
  exact (hadj i hi1).symm

theorem chain_of_no_adjacent_col (b : Board) {c : Nat} (hc : c < b.length)
    (hadj : ∀ r, r + 1 < b.length → getCell b (r + 1) c ≠ getCell b r c) :
    List.Chain' (fun x y => x ≠ y) (getRow (transpose b) c) := by
  rw [getRow_transpose b hc, List.chain'_map]
  cases hn : b.length with
  | zero => simp
  | succ m =>
    rw [List.chain'_range_succ]
    intro i hi
    exact (hadj i (by omega)).symm

theorem col_nonzero (b : Board) (hsq : IsSquare b)
    (h1 : ∀ row ∈ b, ∀ v ∈ row, v ≠ 0) {c : Nat} (hc : c < b.length) :
    ∀ x ∈ getRow (transpose b) c, x ≠ 0 := by
  rw [getRow_transpose b hc]
  intro x hx
  obtain ⟨r, hr, rfl⟩ := List.mem_map.mp hx
  have hrn : r < b.length := List.mem_range.mp hr
  apply h1 (getRow b r) (getRow_mem b hrn)
  apply getCell_mem_row
  rw [hsq _ (getRow_mem b hrn)]
  exact hc

theorem reverse_chain (l : List Nat) (hc : List.Chain' (fun x y => x ≠ y) l) :
    List.Chain' (fun x y => x ≠ y) l.reverse := by
  rw [List.chain'_reverse]
  exact hc.imp (fun a b h => Ne.symm h)

theorem no_move_of_hasMoves_false (b : Board) (hsq : IsSquare b)
    (h : hasMoves b = false) : ∀ d, (move b d).moved = false := by
  obtain ⟨h1, h2⟩ := (hasMoves_eq_false_iff b).mp h
  have hrowChain : ∀ row ∈ b, List.Chain' (fun x y => x ≠ y) row := by
    intro row hrow
    obtain ⟨r, hr, rfl⟩ := List.mem_iff_getElem.mp hrow
    rw [← getRow_eq_getElem b hr]
    exact chain_of_no_adjacent_row b hsq hr (fun c hc1 =>
      (h2 r hr c (by omega)).1 hc1)
  have hcolChain : ∀ col ∈ transpose b, List.Chain' (fun x y => x ≠ y) col := by
    intro col hcol
    obtain ⟨c, hc, rfl⟩ := List.mem_iff_getElem.mp hcol
    have hcn : c < b.length := by
      have := transpose_length b
      omega
    rw [← getRow_eq_getElem (transpose b) hc]
    exact chain_of_no_adjacent_col b hcn (fun r hr1 =>
      (h2 r (by omega) c hcn).2 hr1)
  have hcolnz : ∀ col ∈ transpose b, ∀ x ∈ col, x ≠ 0 := by
    intro col hcol
    obtain ⟨c, hc, rfl⟩ := List.mem_iff_getElem.mp hcol
    have hcn : c < b.length := by
      have := transpose_length b
      omega
    rw [← getRow_eq_getElem (transpose b) hc]
    exact col_nonzero b hsq h1 hcn
  intro d
  cases d with
  | left =>
    rw [move_left_moved, List.any_eq_false]
    intro row hrow
    rw [slide_of_nonzero_chain row (h1 row hrow) (hrowChain row hrow)]
    simp
  | right =>
    rw [move_right_moved, List.any_eq_false]
    intro row' hrow'
    obtain ⟨row, hrow, rfl⟩ := List.mem_map.mp hrow'
    rw [slide_of_nonzero_chain row.reverse
      (fun x hx => h1 row hrow x (List.mem_reverse.mp hx))
      (reverse_chain row (hrowChain row hrow))]
    simp
  | up =>
    rw [move_up_moved, List.any_eq_false]
    intro col hcol
    rw [slide_of_nonzero_chain col (hcolnz col hcol) (hcolChain col hcol)]
    simp
  | down =>
    rw [move_down_moved, List.any_eq_false]
    intro col' hcol'
    obtain ⟨col, hcol, rfl⟩ := List.mem_map.mp hcol'
    rw [slide_of_nonzero_chain col.reverse
      (fun x hx => hcolnz col hcol x (List.mem_reverse.mp hx))
      (reverse_chain col (hcolChain col hcol))]
    simp

theorem exists_move_of_hasMoves_true (b : Board) (hsq : IsSquare b)
    (hnz : ∃ row ∈ b, ∃ x ∈ row, x ≠ 0) (h : hasMoves b = true) :
    ∃ d, (move b d).moved = true := by
  rcases hasMoves_true_cases b h with ⟨rowz, hrowz, h0z⟩ | ⟨h1, r, c, hr, hc, hadj⟩
  · by_cases hmix : ∃ row ∈ b, (0 : Nat) ∈ row ∧ ∃ x ∈ row, x ≠ 0
    · obtain ⟨row, hrow, h0, hx⟩ := hmix
      rcases slide_mixed_moved row h0 hx with hm | hm
      · exact ⟨.left, by
          rw [move_left_moved]
          exact List.any_eq_true.mpr ⟨row, hrow, hm⟩⟩
      · refine ⟨.right, ?_⟩
        rw [move_right_moved]
        exact List.any_eq_true.mpr ⟨row.reverse, List.mem_map.mpr ⟨row, hrow, rfl⟩, hm⟩
    · push_neg at hmix
      obtain ⟨rowx, hrowx, x, hx, hxnz⟩ := hnz
      have hrowznz : ∀ v ∈ rowz, v = 0 := hmix rowz hrowz h0z
      have h0x : (0 : Nat) ∉ rowx := by
        intro h0
        exact hxnz (hmix rowx hrowx h0 x hx)
      obtain ⟨rz, hrz, hbz⟩ := List.mem_iff_getElem.mp hrowz
      obtain ⟨rx, hrx, hbx⟩ := List.mem_iff_getElem.mp hrowx
      have hn : 0 < b.length := by omega
      have hgz : getRow b rz = rowz := by rw [getRow_eq_getElem b hrz, hbz]
      have hgx : getRow b rx = rowx := by rw [getRow_eq_getElem b hrx, hbx]
      have hz0 : getCell b rz 0 = 0 := by
        apply hrowznz
        rw [← hgz]
        apply getCell_mem_row
        rw [hgz]
        have : rowz ≠ [] := List.ne_nil_of_mem h0z
        exact List.length_pos.mpr this
      have hmemx : getCell b rx 0 ∈ rowx := by
        rw [← hgx]
        apply getCell_mem_row
        rw [hgx]
        exact List.length_pos.mpr (List.ne_nil_of_mem hx)
      have hcol0 : getRow (transpose b) 0 =
          (List.range b.length).map (fun r => getCell b r 0) := getRow_transpose b hn
      have h0col : (0 : Nat) ∈ getRow (transpose b) 0 := by
        rw [hcol0]
        exact List.mem_map.mpr ⟨rz, List.mem_range.mpr hrz, hz0⟩
      have hxcol : ∃ y ∈ getRow (transpose b) 0, y ≠ 0 := by
        refine ⟨getCell b rx 0, ?_, ?_⟩
        · rw [hcol0]
          exact List.mem_map.mpr ⟨rx, List.mem_range.mpr hrx, rfl⟩
        · intro h0
          rw [h0] at hmemx
          exact h0x hmemx
      have hcolmem : getRow (transpose b) 0 ∈ transpose b :=
        getRow_mem (transpose b) (by rw [transpose_length]; exact hn)
      rcases slide_mixed_moved _ h0col hxcol with hm | hm
      · exact ⟨.up, by
          rw [move_up_moved]
          exact List.any_eq_true.mpr ⟨_, hcolmem, hm⟩⟩
      · refine ⟨.down, ?_⟩
        rw [move_down_moved]
        exact List.any_eq_true.mpr
          ⟨(getRow (transpose b) 0).reverse, List.mem_map.mpr ⟨_, hcolmem, rfl⟩, hm⟩
  · rcases hadj with ⟨hc1, heq⟩ | ⟨hr1, heq⟩
    · refine ⟨.left, ?_⟩
      rw [move_left_moved]
      have hrowmem := getRow_mem b hr
      refine List.any_eq_true.mpr ⟨getRow b r, hrowmem, ?_⟩
      apply slide_of_nonzero_not_chain
      · exact h1 _ hrowmem
      · intro hchain
        rw [List.chain'_iff_get] at hchain
        have hlen : (getRow b r).length = b.length := hsq _ hrowmem
        have hcc := hchain c (by omega)
        rw [← getCell_eq_get b (by omega), ← getCell_eq_get b (by omega)] at hcc
        exact hcc heq.symm
    · refine ⟨.up, ?_⟩
      rw [move_up_moved]
      refine List.any_eq_true.mpr ⟨getRow (transpose b) c,
        getRow_mem _ (by rw [transpose_length]; exact hc), ?_⟩
      apply slide_of_nonzero_not_chain
      · exact col_nonzero b hsq h1 hc
      · intro hchain
        rw [getRow_transpose b hc, List.chain'_map] at hchain
        obtain ⟨m, hm⟩ := Nat.exists_eq_succ_of_ne_zero (by omega : b.length ≠ 0)
        rw [hm] at hchain
        have h2 := (List.chain'_range_succ _ m).mp hchain
        exact h2 r (by omega) heq.symm

/-- C1, counterexample: the all-zero 2×2 board has an empty cell, so
hasMoves returns true, yet no direction changes the board — every move
reports moved = false. -/
theorem hasMoves_all_zero_counterexample :
    hasMoves [[0,0],[0,0]] = true ∧
      (move [[0,0],[0,0]] .left).moved = false ∧
      (move [[0,0],[0,0]] .right).moved = false ∧
      (move [[0,0],[0,0]] .up).moved = false ∧
      (move [[0,0],[0,0]] .down).moved = false := by
  refine ⟨by decide, by decide, by decide, by decide, by decide⟩

/-- C1 (amended): for every square board holding at least one nonzero tile,
hasMoves returns false exactly when no direction changes the board; on
boards consisting only of empty cells, hasMoves returns true although every
move reports moved = false. -/
theorem hasMoves_iff_no_direction_moves (b : Board) (hsq : IsSquare b)
    (hnz : ∃ row ∈ b, ∃ x ∈ row, x ≠ 0) :
    hasMoves b = false ↔ ∀ d, (move b d).moved = false := by
  constructor
  · exact fun h => no_move_of_hasMoves_false b hsq h
  · intro hall
    rcases Bool.eq_false_or_eq_true (hasMoves b) with ht | hf
    · obtain ⟨d, hd⟩ := exists_move_of_hasMoves_true b hsq hnz ht
      rw [hall d] at hd
      exact absurd hd (by simp)
    · exact hf

/-- C1 witness: the amended equivalence evaluated on the square board
[[2,4],[4,2]], which has a nonzero tile, no empty cell and no adjacent
equal pair: hasMoves is false and indeed no direction moves. -/
theorem hasMoves_iff_no_direction_moves_witness :
    IsSquare [[2,4],[4,2]] ∧ (∃ row ∈ [[2,4],[4,2]], ∃ x ∈ row, x ≠ (0 : Nat)) ∧
      (hasMoves [[2,4],[4,2]] = false ↔ ∀ d, (move [[2,4],[4,2]] d).moved = false) := by
  refine ⟨by unfold IsSquare; decide, by decide, ?_⟩
  exact hasMoves_iff_no_direction_moves [[2,4],[4,2]]
    (by unfold IsSquare; decide) (by decide)

/-- C6: moving up is exactly moving left under transposition. -/
theorem move_up_is_transposed_move_left (board : Board) :
    transpose ((move (transpose board) .left).board) = (move board .up).board := by
  simp [move, cloneBoard_eq]

/-- C7: has2048 is true exactly when some cell holds a value of at least 2048. -/
theorem has2048_iff_exists_ge (board : Board) :
    has2048 board = true ↔ ∃ row ∈ board, ∃ v ∈ row, 2048 ≤ v := by
  simp [has2048]

/-! ## Spawning and well-formedness -/

theorem getEmptyCells_eq_nil (b : Board) (h : ∀ row ∈ b, ∀ v ∈ row, v ≠ 0) :
    getEmptyCells b = [] := by
  unfold getEmptyCells
  rw [List.flatMap_eq_nil_iff]
  intro r hr
  rw [List.filterMap_eq_nil_iff]
  intro c hc
  rw [if_neg]
  intro h0
  have hrn : r < b.length := List.mem_range.mp hr
  have hcn : c < (getRow b r).length := List.mem_range.mp hc
  exact h (getRow b r) (getRow_mem b hrn) _ (getCell_mem_row b hcn) h0

/-- C8: on a board with no empty cell, spawnRandomTile returns the input
board unchanged for every random source — an ordinary no-op return value,
not an error. -/
theorem spawnRandomTile_full_board_noop (b : Board) (r1 r2 : ℚ)
    (h : ∀ row ∈ b, ∀ v ∈ row, v ≠ 0) : spawnRandomTile b r1 r2 = some b := by
  have h0 : (getEmptyCells b).length = 0 := by
    rw [getEmptyCells_eq_nil b h]
    rfl
  simp only [spawnRandomTile]
  rw [if_pos h0]

/-- C8 witness: spawning on the full board [[2]] returns it unchanged. -/
theorem spawnRandomTile_full_board_noop_witness :
    (∀ row ∈ ([[2]] : Board), ∀ v ∈ row, v ≠ 0) ∧
      spawnRandomTile [[2]] 0 0 = some [[2]] :=
  ⟨by decide, spawnRandomTile_full_board_noop [[2]] 0 0 (by decide)⟩

theorem isTile_zero : IsTile 0 := Or.inl rfl

theorem isTile_two : IsTile 2 := Or.inr ⟨1, le_refl 1, rfl⟩

theorem isTile_four : IsTile 4 := Or.inr ⟨2, by omega, by norm_num⟩

theorem isTile_double {x : Nat} (h : IsTile x) (hx : x ≠ 0) : IsTile (x + x) := by
  rcases h with h0 | ⟨k, hk, rfl⟩
  · exact absurd h0 hx
  · refine Or.inr ⟨k + 1, by omega, ?_⟩
    rw [pow_succ]
    omega

theorem slide_preserves_tiles (line : List Nat) (h : ∀ x ∈ line, IsTile x) :
    ∀ y ∈ (slideAndMergeLine line).result, IsTile y := by
  intro y hy
  have hy2 : y ∈ (mergeLine (line.filter (fun v => decide (v ≠ 0)))).1 ++
      List.replicate (line.length -
        (mergeLine (line.filter (fun v => decide (v ≠ 0)))).1.length) 0 := hy
  rcases List.mem_append.mp hy2 with h1 | h1
  · rcases mergeLine_mem _ y h1 with h2 | ⟨x, hx, rfl⟩
    · exact h y (List.mem_of_mem_filter h2)
    · have hxl := List.mem_filter.mp hx
      exact isTile_double (h x hxl.1) (by simpa using hxl.2)
  · rw [List.eq_of_mem_replicate h1]
    exact isTile_zero

theorem wellFormed_isSquare {n : Nat} {b : Board} (h : WellFormed n b) : IsSquare b := by
  intro row hrow
  rw [(h.2 row hrow).1, h.1]

theorem processRows_wellFormed {n : Nat} {b : Board} (h : WellFormed n b) :
    WellFormed n (processRows b).1 := by
  refine ⟨by rw [processRows_length]; exact h.1, ?_⟩
  intro row hrow
  simp only [processRows, List.mem_map] at hrow
  obtain ⟨row0, hrow0, rfl⟩ := hrow
  exact ⟨by rw [slide_result_length]; exact (h.2 row0 hrow0).1,
    slide_preserves_tiles row0 (h.2 row0 hrow0).2⟩

theorem reverseRows_wellFormed {n : Nat} {b : Board} (h : WellFormed n b) :
    WellFormed n (reverseRows b) := by
  refine ⟨by rw [reverseRows_length]; exact h.1, ?_⟩
  intro row hrow
  simp only [reverseRows, List.mem_map] at hrow
  obtain ⟨row0, hrow0, rfl⟩ := hrow
  exact ⟨by rw [List.length_reverse]; exact (h.2 row0 hrow0).1,
    fun x hx => (h.2 row0 hrow0).2 x (List.mem_reverse.mp hx)⟩

theorem getCell_zero_or_mem (b : Board) (r c : Nat) :
    getCell b r c = 0 ∨ ∃ row ∈ b, getCell b r c ∈ row := by
  by_cases hr : r < b.length
  · by_cases hc : c < (getRow b r).length
    · exact Or.inr ⟨getRow b r, getRow_mem b hr, getCell_mem_row b hc⟩
    · left
      unfold getCell
      exact List.getD_eq_default _ _ (by omega)
  · left
    unfold getCell
    rw [show getRow b r = ([] : List Nat) from List.getD_eq_default _ _ (Nat.le_of_not_lt hr)]
    rfl

theorem transpose_wellFormed {n : Nat} {b : Board} (h : WellFormed n b) :
    WellFormed n (transpose b) := by
  refine ⟨by rw [transpose_length]; exact h.1, ?_⟩
  intro row hrow
  refine ⟨by rw [transpose_row_length b row hrow]; exact h.1, ?_⟩
  intro x hx
  simp only [transpose, List.mem_map] at hrow
  obtain ⟨c, hcr, rfl⟩ := hrow
  obtain ⟨r, hrr, rfl⟩ := List.mem_map.mp hx
  rcases getCell_zero_or_mem b r c with h0 | ⟨row0, hrow0, hmem⟩
  · rw [h0]
    exact isTile_zero
  · exact (h.2 row0 hrow0).2 _ hmem

theorem move_wellFormed {n : Nat} (b : Board) (d : Direction) (h : WellFormed n b) :
    WellFormed n (move b d).board := by
  cases d with
  | left =>
    have hb : (move b .left).board = (processRows b).1 := by
      simp [move, cloneBoard_eq]
    rw [hb]
    exact processRows_wellFormed h
  | right =>
    have hb : (move b .right).board = reverseRows (processRows (reverseRows b)).1 := by
      simp [move, cloneBoard_eq]
    rw [hb]
    exact reverseRows_wellFormed (processRows_wellFormed (reverseRows_wellFormed h))
  | up =>
    have hb : (move b .up).board = transpose (processRows (transpose b)).1 := by
      simp [move, cloneBoard_eq]
    rw [hb]
    exact transpose_wellFormed (processRows_wellFormed (transpose_wellFormed h))
  | down =>
    have hb : (move b .down).board =
        transpose (reverseRows (processRows (reverseRows (transpose b))).1) := by
      simp [move, cloneBoard_eq]
    rw [hb]
    exact transpose_wellFormed (reverseRows_wellFormed
      (processRows_wellFormed (reverseRows_wellFormed (transpose_wellFormed h))))

theorem setCell_wellFormed {n : Nat} {b : Board} (h : WellFormed n b) {r c v : Nat}
    (hv : IsTile v) : WellFormed n (setCell b r c v) := by
  refine ⟨by rw [setCell, List.length_set]; exact h.1, ?_⟩
  intro row hrow
  rcases List.mem_or_eq_of_mem_set hrow with h1 | hrr
  · exact h.2 row h1
  · by_cases hr : r < b.length
    · have hrm := getRow_mem b hr
      subst hrr
      refine ⟨by rw [List.length_set]; exact (h.2 _ hrm).1, ?_⟩
      intro x hx
      rcases List.mem_or_eq_of_mem_set hx with h2 | rfl
      · exact (h.2 _ hrm).2 x h2
      · exact hv
    · have hgr : getRow b r = [] := by
        unfold getRow
        exact List.getD_eq_default _ _ (by omega)
      have hnil : (getRow b r).set c v = [] := by
        rw [hgr]
        rfl
      have hset : setCell b r c v = b := by
        rw [setCell, hnil]
        exact List.set_eq_of_length_le (by omega)
      rw [hset] at hrow
      subst hrr
      rw [hnil]
      rw [hnil] at hrow
      exact h.2 [] hrow

theorem spawnRandomTile_wellFormed {n : Nat} (b : Board) (r1 r2 : ℚ) (b' : Board)
    (h : WellFormed n b) (hs : spawnRandomTile b r1 r2 = some b') : WellFormed n b' := by
  simp only [spawnRandomTile] at hs
  split_ifs at hs with he hidx hv
  · rw [Option.some.injEq] at hs
    rw [← hs]
    exact h
  · rw [Option.some.injEq] at hs
    rw [← hs]
    exact setCell_wellFormed h isTile_two
  · rw [Option.some.injEq] at hs
    rw [← hs]
    exact setCell_wellFormed h isTile_four

theorem createEmptyBoard_wellFormed (size : Nat) :
    WellFormed size (createEmptyBoard size) := by
  refine ⟨by simp [createEmptyBoard], ?_⟩
  intro row hrow
  rw [List.eq_of_mem_replicate hrow]
  exact ⟨by simp, fun x hx => by rw [List.eq_of_mem_replicate hx]; exact isTile_zero⟩

theorem initializeBoard_wellFormed (size : Nat) (r1 r2 r3 r4 : ℚ) (b' : Board)
    (hs : initializeBoard size r1 r2 r3 r4 = some b') : WellFormed size b' := by
  unfold initializeBoard at hs
  rcases hb : spawnRandomTile (createEmptyBoard size) r1 r2 with _ | b1
  · rw [hb] at hs
    exact absurd hs (by simp)
  · rw [hb, Option.some_bind] at hs
    exact spawnRandomTile_wellFormed b1 r3 r4 b'
      (spawnRandomTile_wellFormed _ r1 r2 b1 (createEmptyBoard_wellFormed size) hb) hs

/-- C9: every engine operation preserves well-formedness: a move in any
direction and a spawn with any random values keep an n-by-n board of
power-of-two tiles n-by-n with power-of-two tiles, and board initialization
with size of at least 2 produces such a board whenever it returns one
(spawns insert only 2 or 4; merges double an existing power of two). -/
theorem engine_preserves_well_formedness :
    (∀ (n : Nat) (b : Board) (d : Direction), WellFormed n b →
      WellFormed n (move b d).board) ∧
    (∀ (n : Nat) (b : Board) (r1 r2 : ℚ) (b' : Board), WellFormed n b →
      spawnRandomTile b r1 r2 = some b' → WellFormed n b') ∧
    (∀ (size : Nat) (r1 r2 r3 r4 : ℚ) (b' : Board), 2 ≤ size →
      initializeBoard size r1 r2 r3 r4 = some b' → WellFormed size b') := by
  refine ⟨?_, ?_, ?_⟩
  · intro n b d h
    exact move_wellFormed b d h
  · intro n b r1 r2 b' h hs
    exact spawnRandomTile_wellFormed b r1 r2 b' h hs
  · intro size r1 r2 r3 r4 b' _ hs
    exact initializeBoard_wellFormed size r1 r2 r3 r4 b' hs

theorem wellFormed_2402 : WellFormed 2 [[2,4],[0,2]] := by
  refine ⟨rfl, ?_⟩
  intro row hrow
  simp only [List.mem_cons, List.not_mem_nil, or_false] at hrow
  rcases hrow with rfl | rfl
  · refine ⟨rfl, ?_⟩
    intro x hx
    simp only [List.mem_cons, List.not_mem_nil, or_false] at hx
    rcases hx with rfl | rfl
    · exact isTile_two
    · exact isTile_four
  · refine ⟨rfl, ?_⟩
    intro x hx
    simp only [List.mem_cons, List.not_mem_nil, or_false] at hx
    rcases hx with rfl | rfl
    · exact isTile_zero
    · exact isTile_two

theorem wellFormed_single_zero : WellFormed 1 [[0]] := by
  refine ⟨rfl, ?_⟩
  intro row hrow
  simp only [List.mem_cons, List.not_mem_nil, or_false] at hrow
  subst hrow
  refine ⟨rfl, ?_⟩
  intro x hx
  simp only [List.mem_cons, List.not_mem_nil, or_false] at hx
  subst hx
  exact isTile_zero

theorem spawn_eval_zero : spawnRandomTile [[0]] 0 0 = some [[2]] := by
  have he : getEmptyCells [[0]] = [(0, 0)] := by decide
  have hidx : randIndex 1 0 = 0 := by
    unfold randIndex
    norm_num
  simp only [spawnRandomTile, he, List.length_cons, List.length_nil, hidx]
  norm_num
  decide

theorem spawn_eval_2 : spawnRandomTile [[0,0],[0,0]] 0 0 = some [[2,0],[0,0]] := by
  have he : getEmptyCells [[0,0],[0,0]] = [(0,0), (0,1), (1,0), (1,1)] := by decide
  have hidx : randIndex 4 0 = 0 := by
    unfold randIndex
    norm_num
  simp only [spawnRandomTile, he, List.length_cons, List.length_nil, hidx]
  norm_num
  decide

theorem spawn_eval_3 : spawnRandomTile [[2,0],[0,0]] 0 1 = some [[2,4],[0,0]] := by
  have he : getEmptyCells [[2,0],[0,0]] = [(0,1), (1,0), (1,1)] := by decide
  have hidx : randIndex 3 0 = 0 := by
    unfold randIndex
    norm_num
  simp only [spawnRandomTile, he, List.length_cons, List.length_nil, hidx]
  norm_num
  decide

theorem init_eval : initializeBoard 2 0 0 0 1 = some [[2,4],[0,0]] := by
  unfold initializeBoard
  have h1 : createEmptyBoard 2 = [[0,0],[0,0]] := by decide
  rw [h1, spawn_eval_2, Option.some_bind, spawn_eval_3]

/-- C9 witness: the invariant-preservation theorem applied to concrete
inputs — a left move on a well-formed 2×2 board, a spawn on [[0]], and a
seeded 2×2 initialization — each yields a well-formed board. -/
theorem engine_preserves_well_formedness_witness :
    WellFormed 2 ((move [[2,4],[0,2]] .left).board) ∧
    WellFormed 1 [[2]] ∧
    WellFormed 2 [[2,4],[0,0]] := by
  refine ⟨?_, ?_, ?_⟩
  · exact engine_preserves_well_formedness.1 2 [[2,4],[0,2]] .left wellFormed_2402
  · exact engine_preserves_well_formedness.2.1 1 [[0]] 0 0 [[2]]
      wellFormed_single_zero spawn_eval_zero
  · exact engine_preserves_well_formedness.2.2 2 0 0 0 1 [[2,4],[0,0]]
      (by omega) init_eval

/-- C4: no tile produced by a merge merges again in the same move: on the
board whose first row is [2,0,2,2] (other rows zero), a left move yields
first row [4,2,0,0] — the two left 2s merge and the remaining 2 is not
absorbed into the new 4 — with a gain of 4. -/
theorem merge_once_concrete :
    (move [[2,0,2,2],[0,0,0,0],[0,0,0,0],[0,0,0,0]] .left).board =
      [[4,2,0,0],[0,0,0,0],[0,0,0,0],[0,0,0,0]] ∧
    (move [[2,0,2,2],[0,0,0,0],[0,0,0,0],[0,0,0,0]] .left).gained = 4 ∧
    (move [[2,0,2,2],[0,0,0,0],[0,0,0,0],[0,0,0,0]] .left).moved = true := by
  refine ⟨by decide, by decide, by decide⟩

end Game2048
